import Mathlib

/-!
Verification of the docdb append-only log and in-memory index.

Bytes are modelled as natural numbers (a real file byte is below 256; where a
statement needs that bound it carries an explicit hypothesis).  The log file is
a list of bytes, the writer appends encoded records, and the reader decodes the
byte list sequentially from the front, exactly following the record format of
log.rs: a tag byte (0 = Put, 1 = Delete), a 4-byte little-endian key length,
the key bytes, and for Put records a 4-byte little-endian value length followed
by the value bytes.
-/

namespace DocDb

/-- Little-endian 4-byte encoding of a value below 2^32, as produced by
the Rust expression (len as u32).to_le_bytes(). -/
def u32le (n : Nat) : List Nat :=
  [n % 256, n / 256 % 256, n / 65536 % 256, n / 16777216 % 256]

/-- Little-endian reading of a 4-byte buffer, as done by
u32::from_le_bytes in read_all. -/
def le32 : List Nat → Nat
  | [b0, b1, b2, b3] => b0 + 256 * b1 + 65536 * b2 + 16777216 * b3
  | _ => 0

/-- Model of read_exact on a byte stream: succeed with the first n bytes and
the remainder when at least n bytes are available, otherwise fail with
UnexpectedEof. -/
def takeExact (n : Nat) (s : List Nat) : Option (List Nat × List Nat) :=
  if n ≤ s.length then some (s.take n, s.drop n) else none

/-- The LogRecord enum of log.rs: a single logged mutation. -/
inductive LogRecord where
  | Put (key value : List Nat)
  | Delete (key : List Nat)
deriving DecidableEq

/-- The key bytes of a record (the key accessor of log.rs). -/
def LogRecord.recordKey : LogRecord → List Nat
  | .Put k _ => k
  | .Delete k => k

/-- Byte encoding of one record, exactly as written by Log::put and
Log::delete: the tag byte, the key length cast to u32 (hence reduced
modulo 2^32) in little-endian, the key bytes, and for Put the value length
cast to u32 followed by the value bytes. -/
def encodeRecord : LogRecord → List Nat
  | .Put key value =>
      0 :: (u32le (key.length % 4294967296) ++ key ++
            u32le (value.length % 4294967296) ++ value)
  | .Delete key =>
      1 :: (u32le (key.length % 4294967296) ++ key)

/-- Byte encoding of a sequence of records written in order to a fresh file. -/
def encodeRecords (rs : List LogRecord) : List Nat :=
  (rs.map encodeRecord).flatten

/-- The two error shapes surfaced by Log::read_all: an unexpected end of file
inside a record, and an unknown record tag. -/
inductive DecodeError where
  | eof
  | unknownTag (t : Nat)
deriving DecidableEq

/-- One iteration of the read_all loop: on an empty stream report a clean end
of file (none); otherwise read the tag byte, the key length, the key, and
depending on the tag the value length and value, in exactly the order of the
Rust loop body (the tag is examined only after the key has been read). -/
def readOne (s : List Nat) : Except DecodeError (Option (LogRecord × List Nat)) :=
  match s with
  | [] => .ok none
  | t :: rest =>
    match takeExact 4 rest with
    | none => .error .eof
    | some (lenB, rest2) =>
      match takeExact (le32 lenB) rest2 with
      | none => .error .eof
      | some (key, rest3) =>
        if t = 0 then
          match takeExact 4 rest3 with
          | none => .error .eof
          | some (vlenB, rest4) =>
            match takeExact (le32 vlenB) rest4 with
            | none => .error .eof
            | some (value, rest5) => .ok (some (.Put key value, rest5))
        else if t = 1 then
          .ok (some (.Delete key, rest3))
        else
          .error (.unknownTag t)

/-- Fuel-indexed version of the read_all loop; the fuel only serves to make
the recursion structural and is irrelevant once it exceeds the stream
length. -/
def readAllF : Nat → List Nat → Except DecodeError (List LogRecord)
  | 0, _ => .error .eof
  | fuel + 1, s =>
    match readOne s with
    | .error e => .error e
    | .ok none => .ok []
    | .ok (some (r, rest)) =>
      match readAllF fuel rest with
      | .error e => .error e
      | .ok rs => .ok (r :: rs)

/-- Log::read_all on the byte content of a file: decode records sequentially
from offset 0 until end of file. -/
def readAll (s : List Nat) : Except DecodeError (List LogRecord) :=
  readAllF (s.length + 1) s

/-- A record whose length fields do not wrap: key and value are shorter than
2^32 bytes. -/
def recordFits : LogRecord → Prop
  | .Put key value => key.length < 4294967296 ∧ value.length < 4294967296
  | .Delete key => key.length < 4294967296

instance instDecidableRecordFits (r : LogRecord) : Decidable (recordFits r) :=
  match r with
  | .Put key value =>
      inferInstanceAs (Decidable (key.length < 4294967296 ∧ value.length < 4294967296))
  | .Delete key =>
      inferInstanceAs (Decidable (key.length < 4294967296))

/-- All records of a list fit the 32-bit length fields. -/
def recordsFit (rs : List LogRecord) : Prop := ∀ r ∈ rs, recordFits r

instance instDecidableRecordsFit (rs : List LogRecord) : Decidable (recordsFit rs) :=
  inferInstanceAs (Decidable (∀ r ∈ rs, recordFits r))

/-! Basic lemmas about the byte-level primitives. -/

theorem length_u32le (n : Nat) : (u32le n).length = 4 := rfl

theorem le32_u32le (n : Nat) (h : n < 4294967296) : le32 (u32le n) = n := by
  simp only [u32le, le32]
  omega

theorem u32le_lt (n : Nat) : ∀ b ∈ u32le n, b < 256 := by
  intro b hb
  simp only [u32le, List.mem_cons, List.not_mem_nil, or_false] at hb
  rcases hb with rfl | rfl | rfl | rfl <;> exact Nat.mod_lt _ (by norm_num)

theorem u32le_le32 (b0 b1 b2 b3 : Nat) (h0 : b0 < 256) (h1 : b1 < 256)
    (h2 : b2 < 256) (h3 : b3 < 256) :
    u32le (le32 [b0, b1, b2, b3]) = [b0, b1, b2, b3] := by
  simp only [u32le, le32, List.cons.injEq, and_true]
  refine ⟨?_, ?_, ?_, ?_⟩ <;> omega

theorem le32_lt (b0 b1 b2 b3 : Nat) (h0 : b0 < 256) (h1 : b1 < 256)
    (h2 : b2 < 256) (h3 : b3 < 256) : le32 [b0, b1, b2, b3] < 4294967296 := by
  simp only [le32]; omega

theorem takeExact_append (a b : List Nat) :
    takeExact a.length (a ++ b) = some (a, b) := by
  simp [takeExact, List.take_append, List.drop_append]

theorem takeExact_eq_some {n : Nat} {s a b : List Nat}
    (h : takeExact n s = some (a, b)) :
    s = a ++ b ∧ a.length = n := by
  unfold takeExact at h
  split at h
  · rename_i hle
    injection h with h
    injection h with h1 h2
    subst h1; subst h2
    exact ⟨(List.take_append_drop n s).symm, List.length_take_of_le hle⟩
  · cases h

theorem takeExact_length_le {n : Nat} {s a b : List Nat}
    (h : takeExact n s = some (a, b)) : b.length ≤ s.length := by
  obtain ⟨hs, -⟩ := takeExact_eq_some h
  subst hs
  simp

theorem list_length_eq_four {l : List Nat} (h : l.length = 4) :
    ∃ b0 b1 b2 b3, l = [b0, b1, b2, b3] := by
  match l, h with
  | [b0, b1, b2, b3], _ => exact ⟨b0, b1, b2, b3, rfl⟩

/-! Lemmas about a single step of the read_all loop. -/

theorem readOne_length_lt {s : List Nat} {r : LogRecord} {rest : List Nat}
    (h : readOne s = .ok (some (r, rest))) : rest.length < s.length := by
  cases s with
  | nil => simp [readOne] at h
  | cons t tl =>
    simp only [readOne] at h
    split at h
    · cases h
    · rename_i lenB rest2 h4
      split at h
      · cases h
      · rename_i key rest3 hk
        have l2 := takeExact_length_le h4
        have l3 := takeExact_length_le hk
        split at h
        · split at h
          · cases h
          · rename_i vlenB rest4 hv
            split at h
            · cases h
            · rename_i value rest5 hval
              have l4 := takeExact_length_le hv
              have l5 := takeExact_length_le hval
              injection h with h
              injection h with h
              injection h with h1 h2
              subst h2
              simp only [List.length_cons]
              omega
        · split at h
          · injection h with h
            injection h with h
            injection h with h1 h2
            subst h2
            simp only [List.length_cons]
            omega
          · cases h

theorem readOne_nil : readOne [] = .ok none := rfl

theorem readOne_eq_none {s : List Nat} (h : readOne s = .ok none) : s = [] := by
  cases s with
  | nil => rfl
  | cons t tl =>
    simp only [readOne] at h
    split at h
    · cases h
    · split at h
      · cases h
      · split at h
        · split at h
          · cases h
          · split at h
            · cases h
            · cases h
        · split at h
          · cases h
          · cases h

theorem readOne_error_shape {s : List Nat} {e : DecodeError}
    (h : readOne s = .error e) :
    e = .eof ∨ ∃ t, ¬t = 0 ∧ ¬t = 1 ∧ e = .unknownTag t := by
  cases s with
  | nil => cases h
  | cons t tl =>
    simp only [readOne] at h
    split at h
    · injection h with h; exact .inl h.symm
    · split at h
      · injection h with h; exact .inl h.symm
      · split at h
        · split at h
          · injection h with h; exact .inl h.symm
          · split at h
            · injection h with h; exact .inl h.symm
            · cases h
        · split at h
          · cases h
          · rename_i ht0 ht1
            injection h with h
            exact .inr ⟨t, ht0, ht1, h.symm⟩

theorem takeExact_four_u32le (n : Nat) (b : List Nat) :
    takeExact 4 (u32le n ++ b) = some (u32le n, b) :=
  takeExact_append (u32le n) b

theorem readOne_encode (r : LogRecord) (rest : List Nat) (hfit : recordFits r) :
    readOne (encodeRecord r ++ rest) = .ok (some (r, rest)) := by
  cases r with
  | Put key value =>
    obtain ⟨hk, hv⟩ := hfit
    simp only [encodeRecord, Nat.mod_eq_of_lt hk, Nat.mod_eq_of_lt hv,
      List.cons_append, List.append_assoc, readOne, takeExact_four_u32le,
      le32_u32le _ hk, le32_u32le _ hv, takeExact_append, if_pos]
  | Delete key =>
    have hk : key.length < 4294967296 := hfit
    simp only [encodeRecord, Nat.mod_eq_of_lt hk, List.cons_append,
      List.append_assoc, readOne, takeExact_four_u32le, le32_u32le _ hk,
      takeExact_append]
    norm_num

theorem readOne_sound {s : List Nat} {r : LogRecord} {rest : List Nat}
    (hb : ∀ b ∈ s, b < 256) (h : readOne s = .ok (some (r, rest))) :
    s = encodeRecord r ++ rest ∧ recordFits r := by
  cases s with
  | nil => simp [readOne] at h
  | cons t tl =>
    simp only [readOne] at h
    split at h
    · cases h
    · rename_i lenB rest2 h4
      obtain ⟨htl, hlen4⟩ := takeExact_eq_some h4
      obtain ⟨b0, b1, b2, b3, rfl⟩ := list_length_eq_four hlen4
      have hblt : b0 < 256 ∧ b1 < 256 ∧ b2 < 256 ∧ b3 < 256 := by
        refine ⟨hb b0 ?_, hb b1 ?_, hb b2 ?_, hb b3 ?_⟩ <;> subst htl <;> simp
      obtain ⟨hb0, hb1, hb2, hb3⟩ := hblt
      have hle : le32 [b0, b1, b2, b3] < 4294967296 := le32_lt _ _ _ _ hb0 hb1 hb2 hb3
      have hrec : u32le (le32 [b0, b1, b2, b3]) = [b0, b1, b2, b3] :=
        u32le_le32 _ _ _ _ hb0 hb1 hb2 hb3
      split at h
      · cases h
      · rename_i key rest3 hkx
        obtain ⟨hr2, hklen⟩ := takeExact_eq_some hkx
        split at h
        · rename_i ht0
          subst ht0
          split at h
          · cases h
          · rename_i vlenB rest4 hvx
            obtain ⟨hr3, hvlen4⟩ := takeExact_eq_some hvx
            obtain ⟨c0, c1, c2, c3, rfl⟩ := list_length_eq_four hvlen4
            have hclt : c0 < 256 ∧ c1 < 256 ∧ c2 < 256 ∧ c3 < 256 := by
              refine ⟨hb c0 ?_, hb c1 ?_, hb c2 ?_, hb c3 ?_⟩ <;>
                subst htl <;> subst hr2 <;> subst hr3 <;> simp
            obtain ⟨hc0, hc1, hc2, hc3⟩ := hclt
            have hvle : le32 [c0, c1, c2, c3] < 4294967296 :=
              le32_lt _ _ _ _ hc0 hc1 hc2 hc3
            have hvrec : u32le (le32 [c0, c1, c2, c3]) = [c0, c1, c2, c3] :=
              u32le_le32 _ _ _ _ hc0 hc1 hc2 hc3
            split at h
            · cases h
            · rename_i value rest5 hvalx
              obtain ⟨hr4, hvallen⟩ := takeExact_eq_some hvalx
              injection h with h
              injection h with h
              injection h with h1 h2
              subst h1
              subst h2
              constructor
              · simp only [encodeRecord, hklen, hvallen,
                  Nat.mod_eq_of_lt hle, Nat.mod_eq_of_lt hvle, hrec, hvrec,
                  List.cons_append, List.append_assoc]
                rw [htl, hr2, hr3, hr4]
                simp
              · exact ⟨hklen ▸ hle, hvallen ▸ hvle⟩
        · split at h
          · rename_i ht1
            subst ht1
            injection h with h
            injection h with h
            injection h with h1 h2
            subst h1
            subst h2
            constructor
            · simp only [encodeRecord, hklen, Nat.mod_eq_of_lt hle, hrec,
                List.cons_append, List.append_assoc]
              rw [htl, hr2]
              simp
            · exact show key.length < 4294967296 by omega
          · cases h

/-! Lemmas about read_all itself. -/

theorem readAllF_irrel : ∀ f1 f2 : Nat, ∀ s : List Nat,
    s.length < f1 → s.length < f2 → readAllF f1 s = readAllF f2 s := by
  intro f1
  induction f1 with
  | zero => intro f2 s h1; omega
  | succ f1 ih =>
    intro f2 s h1 h2
    cases f2 with
    | zero => omega
    | succ f2 =>
      simp only [readAllF]
      cases hro : readOne s with
      | error e => rfl
      | ok v =>
        cases v with
        | none => rfl
        | some p =>
          obtain ⟨r, rest⟩ := p
          have := readOne_length_lt hro
          dsimp only
          rw [ih f2 rest (by omega) (by omega)]

theorem readAll_nil : readAll [] = .ok [] := rfl

theorem readAll_step {s : List Nat} {r : LogRecord} {rest : List Nat}
    (h : readOne s = .ok (some (r, rest))) :
    readAll s = match readAll rest with
      | .ok rs => .ok (r :: rs)
      | .error e => .error e := by
  have hlt := readOne_length_lt h
  show readAllF (s.length + 1) s = _
  simp only [readAllF, h]
  rw [readAllF_irrel s.length (rest.length + 1) rest hlt (by omega)]
  have e : readAllF (rest.length + 1) rest = readAll rest := rfl
  rw [e]
  cases readAll rest <;> rfl

theorem readAll_step_error {s : List Nat} {e : DecodeError}
    (h : readOne s = .error e) : readAll s = .error e := by
  unfold readAll
  simp only [readAllF, h]

theorem readAll_append_encode (rs : List LogRecord) (tail : List Nat)
    (hfit : recordsFit rs) :
    readAll (encodeRecords rs ++ tail) = match readAll tail with
      | .ok more => .ok (rs ++ more)
      | .error e => .error e := by
  induction rs with
  | nil =>
    simp only [encodeRecords, List.map_nil, List.flatten_nil, List.nil_append]
    cases h : readAll tail <;> simp
  | cons r rs ih =>
    have hr : recordFits r := hfit r (by simp)
    have hrs : recordsFit rs := fun x hx => hfit x (by simp [hx])
    simp only [encodeRecords, List.map_cons, List.flatten_cons, List.append_assoc]
    rw [readAll_step (readOne_encode r _ hr)]
    rw [show (List.map encodeRecord rs).flatten = encodeRecords rs from rfl] at *
    rw [ih hrs]
    cases h : readAll tail <;> simp

theorem readAll_encode (rs : List LogRecord) (hfit : recordsFit rs) :
    readAll (encodeRecords rs) = .ok rs := by
  have := readAll_append_encode rs [] hfit
  simpa [readAll_nil] using this

theorem readAll_sound : ∀ n : Nat, ∀ s : List Nat, s.length ≤ n →
    (∀ b ∈ s, b < 256) → ∀ rs : List LogRecord,
    readAll s = .ok rs → s = encodeRecords rs ∧ recordsFit rs := by
  intro n
  induction n with
  | zero =>
    intro s hs hb rs h
    have : s = [] := List.eq_nil_of_length_eq_zero (by omega)
    subst this
    rw [readAll_nil] at h
    injection h with h
    subst h
    exact ⟨rfl, fun r hr => by cases hr⟩
  | succ n ih =>
    intro s hs hb rs h
    cases hro : readOne s with
    | error e => rw [readAll_step_error hro] at h; cases h
    | ok v =>
      cases v with
      | none =>
        have hnil := readOne_eq_none hro
        subst hnil
        rw [readAll_nil] at h
        injection h with h
        subst h
        exact ⟨rfl, fun r hr => by cases hr⟩
      | some p =>
        obtain ⟨r, rest⟩ := p
        have hlt := readOne_length_lt hro
        obtain ⟨hsplit, hfit⟩ := readOne_sound hb hro
        rw [readAll_step hro] at h
        cases hrest : readAll rest with
        | error e => rw [hrest] at h; cases h
        | ok rs' =>
          rw [hrest] at h
          injection h with h
          subst h
          have hbrest : ∀ b ∈ rest, b < 256 := by
            intro b hbm
            exact hb b (by rw [hsplit]; simp [hbm])
          obtain ⟨henc, hfits⟩ := ih rest (by omega) hbrest rs' hrest
          constructor
          · rw [hsplit, henc]
            simp [encodeRecords]
          · intro x hx
            rcases List.mem_cons.mp hx with rfl | hx
            · exact hfit
            · exact hfits x hx

theorem readAll_error_shape : ∀ f : Nat, ∀ s : List Nat, ∀ e : DecodeError,
    readAllF f s = .error e →
    e = .eof ∨ ∃ t, ¬t = 0 ∧ ¬t = 1 ∧ e = .unknownTag t := by
  intro f
  induction f with
  | zero =>
    intro s e h
    injection h with h
    exact .inl h.symm
  | succ f ih =>
    intro s e h
    simp only [readAllF] at h
    cases hro : readOne s with
    | error e' =>
      rw [hro] at h
      injection h with h
      subst h
      exact readOne_error_shape hro
    | ok v =>
      rw [hro] at h
      cases v with
      | none => cases h
      | some p =>
        obtain ⟨r, rest⟩ := p
        dsimp only at h
        cases hrest : readAllF f rest with
        | error e' =>
          rw [hrest] at h
          injection h with h
          subst h
          exact ih rest e' hrest
        | ok rs => rw [hrest] at h; cases h

/-! UTF-8 encoding and decoding over natural-number bytes, modelling
str::as_bytes and String::from_utf8 from the Rust standard library as used by
Db::put, Db::delete and Db::replay_log.  The accepted byte sequences are
exactly the valid UTF-8 encodings: minimal-length encodings of Unicode scalar
values, excluding the surrogate range. -/

/-- Build a character from a Nat known to be a Unicode scalar value. -/
def mkChar (n : Nat) (h : n < 55296 ∨ (57343 < n ∧ n < 1114112)) : Char :=
  ⟨UInt32.ofNat' n (Char.isValidUInt32 n h), Char.isValidChar_of_isValidCharNat n h⟩

theorem toNat_mkChar (n : Nat) (h : n < 55296 ∨ (57343 < n ∧ n < 1114112)) :
    (mkChar n h).toNat = n := rfl

theorem char_eq_of_toNat_eq {c1 c2 : Char} (h : c1.toNat = c2.toNat) : c1 = c2 :=
  Char.ext (UInt32.ext h)

theorem mkChar_toNat (c : Char) (h : c.toNat < 55296 ∨ (57343 < c.toNat ∧ c.toNat < 1114112)) :
    mkChar c.toNat h = c :=
  char_eq_of_toNat_eq (toNat_mkChar _ _)

theorem char_valid_nat (c : Char) :
    c.toNat < 55296 ∨ (57343 < c.toNat ∧ c.toNat < 1114112) :=
  match c.valid with
  | .inl h => .inl (UInt32.toNat_lt_of_lt (by decide) h)
  | .inr ⟨h1, h2⟩ =>
      .inr ⟨UInt32.lt_toNat_of_lt (by decide) h1, UInt32.toNat_lt_of_lt (by decide) h2⟩

/-- UTF-8 encoding of one character (the byte sequence str::as_bytes exposes
for it): one byte below 128, else two, three or four bytes with the standard
lead-byte and continuation-byte layout. -/
def encodeChar (c : Char) : List Nat :=
  let v := c.toNat
  if v < 128 then [v]
  else if v < 2048 then [192 + v / 64, 128 + v % 64]
  else if v < 65536 then [224 + v / 4096, 128 + v / 64 % 64, 128 + v % 64]
  else [240 + v / 262144, 128 + v / 4096 % 64, 128 + v / 64 % 64, 128 + v % 64]

/-- UTF-8 byte encoding of a string, as produced by key.as_bytes() in
Db::put and Db::delete. -/
def encodeUtf8 (s : String) : List Nat := s.data.flatMap encodeChar

/-- Decode one UTF-8 character from the front of a byte list, rejecting
overlong encodings, surrogates and out-of-range values, exactly as the UTF-8
validation of String::from_utf8 does. -/
def decodeCharUtf8 : List Nat → Option (Char × List Nat)
  | [] => none
  | b0 :: rest =>
    if h1 : b0 < 128 then
      some (mkChar b0 (.inl (by omega)), rest)
    else if h2 : 192 ≤ b0 ∧ b0 < 224 then
      match rest with
      | [] => none
      | b1 :: rest1 =>
        if h3 : 128 ≤ b1 ∧ b1 < 192 then
          if h4 : 128 ≤ (b0 - 192) * 64 + (b1 - 128) then
            some (mkChar ((b0 - 192) * 64 + (b1 - 128)) (.inl (by omega)), rest1)
          else none
        else none
    else if h5 : 224 ≤ b0 ∧ b0 < 240 then
      match rest with
      | b1 :: b2 :: rest2 =>
        if h6 : (128 ≤ b1 ∧ b1 < 192) ∧ (128 ≤ b2 ∧ b2 < 192) then
          if h7 : 2048 ≤ (b0 - 224) * 4096 + (b1 - 128) * 64 + (b2 - 128) ∧
              ((b0 - 224) * 4096 + (b1 - 128) * 64 + (b2 - 128) < 55296 ∨
               (57343 < (b0 - 224) * 4096 + (b1 - 128) * 64 + (b2 - 128) ∧
                (b0 - 224) * 4096 + (b1 - 128) * 64 + (b2 - 128) < 1114112)) then
            some (mkChar ((b0 - 224) * 4096 + (b1 - 128) * 64 + (b2 - 128)) h7.2, rest2)
          else none
        else none
      | _ => none
    else if h8 : 240 ≤ b0 ∧ b0 < 248 then
      match rest with
      | b1 :: b2 :: b3 :: rest3 =>
        if h9 : (128 ≤ b1 ∧ b1 < 192) ∧ (128 ≤ b2 ∧ b2 < 192) ∧ (128 ≤ b3 ∧ b3 < 192) then
          if h10 : 65536 ≤ (b0 - 240) * 262144 + (b1 - 128) * 4096 + (b2 - 128) * 64 + (b3 - 128) ∧
              (b0 - 240) * 262144 + (b1 - 128) * 4096 + (b2 - 128) * 64 + (b3 - 128) < 1114112 then
            some (mkChar ((b0 - 240) * 262144 + (b1 - 128) * 4096 + (b2 - 128) * 64 + (b3 - 128))
              (.inr ⟨by omega, h10.2⟩), rest3)
          else none
        else none
      | _ => none
    else none

/-- Fuel-indexed full UTF-8 decode; the fuel is irrelevant once it exceeds
the length of the byte list. -/
def decodeUtf8F : Nat → List Nat → Option (List Char)
  | 0, _ => none
  | _ + 1, [] => some []
  | fuel + 1, b :: rest =>
    match decodeCharUtf8 (b :: rest) with
    | none => none
    | some (c, rest') =>
      match decodeUtf8F fuel rest' with
      | none => none
      | some cs => some (c :: cs)

/-- Full UTF-8 decode of a byte list into a character list; none exactly when
the bytes are not valid UTF-8. -/
def decodeUtf8 (s : List Nat) : Option (List Char) := decodeUtf8F (s.length + 1) s

/-- Model of String::from_utf8: the string with the given UTF-8 bytes, or
none when the bytes are not valid UTF-8. -/
def stringFromUtf8 (s : List Nat) : Option String := (decodeUtf8 s).map String.mk

/-! Lemmas about the UTF-8 codec. -/

theorem decodeCharUtf8_length {s : List Nat} {c : Char} {r : List Nat}
    (h : decodeCharUtf8 s = some (c, r)) : r.length < s.length := by
  cases s with
  | nil => cases h
  | cons b0 rest =>
    simp only [decodeCharUtf8] at h
    repeat' split at h
    all_goals first
      | (injection h with h
         injection h with h1 h2
         subst h2
         simp only [List.length_cons]
         omega)
      | cases h

theorem decodeUtf8F_irrel : ∀ f1 f2 : Nat, ∀ s : List Nat,
    s.length < f1 → s.length < f2 → decodeUtf8F f1 s = decodeUtf8F f2 s := by
  intro f1
  induction f1 with
  | zero => intro f2 s h1 _; exact absurd h1 (Nat.not_lt_zero _)
  | succ f1 ih =>
    intro f2 s h1 h2
    cases f2 with
    | zero => exact absurd h2 (Nat.not_lt_zero _)
    | succ f2 =>
      cases s with
      | nil => rfl
      | cons b tl =>
        simp only [decodeUtf8F]
        cases hd : decodeCharUtf8 (b :: tl) with
        | none => rfl
        | some p =>
          obtain ⟨c, r⟩ := p
          have hlen := decodeCharUtf8_length hd
          have h1' : tl.length + 1 < f1 + 1 := by simpa using h1
          have h2' : tl.length + 1 < f2 + 1 := by simpa using h2
          have hlen' : r.length < tl.length + 1 := by simpa using hlen
          dsimp only
          rw [ih f2 r (by omega) (by omega)]

theorem decodeUtf8_step {s : List Nat} {c : Char} {r : List Nat}
    (h : decodeCharUtf8 s = some (c, r)) :
    decodeUtf8 s = match decodeUtf8 r with
      | none => none
      | some cs => some (c :: cs) := by
  have hlt := decodeCharUtf8_length h
  cases s with
  | nil => cases h
  | cons b tl =>
    show decodeUtf8F ((b :: tl).length + 1) (b :: tl) = _
    simp only [decodeUtf8F, h]
    rw [decodeUtf8F_irrel (b :: tl).length (r.length + 1) r hlt (by omega)]
    have e : decodeUtf8F (r.length + 1) r = decodeUtf8 r := rfl
    rw [e]

theorem decodeCharUtf8_encodeChar (c : Char) (rest : List Nat) :
    decodeCharUtf8 (encodeChar c ++ rest) = some (c, rest) := by
  have hv := char_valid_nat c
  by_cases h1 : c.toNat < 128
  · have e1 : encodeChar c = [c.toNat] := by
      simp only [encodeChar, if_pos h1]
    rw [e1]
    simp only [List.cons_append, List.nil_append, decodeCharUtf8]
    rw [dif_pos h1, mkChar_toNat]
  · by_cases h2 : c.toNat < 2048
    · have e1 : encodeChar c = [192 + c.toNat / 64, 128 + c.toNat % 64] := by
        simp only [encodeChar, if_neg h1, if_pos h2]
      rw [e1]
      simp only [List.cons_append, List.nil_append, decodeCharUtf8]
      rw [dif_neg (by omega : ¬(192 + c.toNat / 64 < 128))]
      rw [dif_pos (show 192 ≤ 192 + c.toNat / 64 ∧ 192 + c.toNat / 64 < 224 by
        constructor <;> omega)]
      dsimp only
      rw [dif_pos (show 128 ≤ 128 + c.toNat % 64 ∧ 128 + c.toNat % 64 < 192 by
        constructor <;> omega)]
      rw [dif_pos (show 128 ≤ (192 + c.toNat / 64 - 192) * 64 + (128 + c.toNat % 64 - 128) by
        omega)]
      exact congrArg (fun x => some (x, rest)) (char_eq_of_toNat_eq (by
        rw [toNat_mkChar]; omega))
    · by_cases h3 : c.toNat < 65536
      · have e1 : encodeChar c =
            [224 + c.toNat / 4096, 128 + c.toNat / 64 % 64, 128 + c.toNat % 64] := by
          simp only [encodeChar, if_neg h1, if_neg h2, if_pos h3]
        rw [e1]
        simp only [List.cons_append, List.nil_append, decodeCharUtf8]
        rw [dif_neg (by omega : ¬(224 + c.toNat / 4096 < 128))]
        rw [dif_neg (show ¬(192 ≤ 224 + c.toNat / 4096 ∧ 224 + c.toNat / 4096 < 224) by
          omega)]
        rw [dif_pos (show 224 ≤ 224 + c.toNat / 4096 ∧ 224 + c.toNat / 4096 < 240 by
          constructor <;> omega)]
        try dsimp only
        rw [dif_pos (show (128 ≤ 128 + c.toNat / 64 % 64 ∧ 128 + c.toNat / 64 % 64 < 192) ∧
            (128 ≤ 128 + c.toNat % 64 ∧ 128 + c.toNat % 64 < 192) by
          refine ⟨⟨?_, ?_⟩, ?_, ?_⟩ <;> omega)]
        rw [dif_pos ?_]
        · exact congrArg (fun x => some (x, rest)) (char_eq_of_toNat_eq (by
            rw [toNat_mkChar]; omega))
        · refine ⟨by omega, ?_⟩
          rcases hv with h | h
          · exact .inl (by omega)
          · exact .inr ⟨by omega, by omega⟩
      · have h4 : c.toNat < 1114112 := by rcases hv with h | h <;> omega
        have e1 : encodeChar c = [240 + c.toNat / 262144, 128 + c.toNat / 4096 % 64,
            128 + c.toNat / 64 % 64, 128 + c.toNat % 64] := by
          simp only [encodeChar, if_neg h1, if_neg h2, if_neg h3]
        rw [e1]
        simp only [List.cons_append, List.nil_append, decodeCharUtf8]
        rw [dif_neg (by omega : ¬(240 + c.toNat / 262144 < 128))]
        rw [dif_neg (show ¬(192 ≤ 240 + c.toNat / 262144 ∧ 240 + c.toNat / 262144 < 224) by
          omega)]
        rw [dif_neg (show ¬(224 ≤ 240 + c.toNat / 262144 ∧ 240 + c.toNat / 262144 < 240) by
          omega)]
        rw [dif_pos (show 240 ≤ 240 + c.toNat / 262144 ∧ 240 + c.toNat / 262144 < 248 by
          constructor <;> omega)]
        try dsimp only
        rw [dif_pos (show (128 ≤ 128 + c.toNat / 4096 % 64 ∧ 128 + c.toNat / 4096 % 64 < 192) ∧
            (128 ≤ 128 + c.toNat / 64 % 64 ∧ 128 + c.toNat / 64 % 64 < 192) ∧
            (128 ≤ 128 + c.toNat % 64 ∧ 128 + c.toNat % 64 < 192) by
          refine ⟨⟨?_, ?_⟩, ⟨?_, ?_⟩, ?_, ?_⟩ <;> omega)]
        rw [dif_pos (show 65536 ≤ (240 + c.toNat / 262144 - 240) * 262144 +
            (128 + c.toNat / 4096 % 64 - 128) * 4096 + (128 + c.toNat / 64 % 64 - 128) * 64 +
            (128 + c.toNat % 64 - 128) ∧ (240 + c.toNat / 262144 - 240) * 262144 +
            (128 + c.toNat / 4096 % 64 - 128) * 4096 + (128 + c.toNat / 64 % 64 - 128) * 64 +
            (128 + c.toNat % 64 - 128) < 1114112 by constructor <;> omega)]
        exact congrArg (fun x => some (x, rest)) (char_eq_of_toNat_eq (by
          rw [toNat_mkChar]; omega))

theorem decodeUtf8_encode (cs : List Char) :
    decodeUtf8 (cs.flatMap encodeChar) = some cs := by
  induction cs with
  | nil => rfl
  | cons c cs ih =>
    rw [List.flatMap_cons, decodeUtf8_step (decodeCharUtf8_encodeChar c _), ih]

theorem stringFromUtf8_encodeUtf8 (s : String) :
    stringFromUtf8 (encodeUtf8 s) = some s := by
  show (decodeUtf8 (s.data.flatMap encodeChar)).map String.mk = some s
  rw [decodeUtf8_encode]
  cases s
  rfl

/-! The in-memory index, modelling the HashMap of db.rs observationally:
insert overwrites any previous binding of the key, remove deletes it, get
looks it up. -/

abbrev Index := List (String × List Nat)

def eraseKey (k : String) (i : Index) : Index :=
  i.filter (fun p => decide (¬p.1 = k))

def insertKey (k : String) (v : List Nat) (i : Index) : Index :=
  (k, v) :: eraseKey k i

def lookupKey (k : String) (i : Index) : Option (List Nat) :=
  (i.find? (fun p => decide (p.1 = k))).map (fun p => p.2)

theorem lookup_insert_self (k : String) (v : List Nat) (i : Index) :
    lookupKey k (insertKey k v i) = some v := by
  simp [lookupKey, insertKey, List.find?]

theorem find?_erase_ne (k k' : String) (i : Index) (h : ¬k' = k) :
    (eraseKey k i).find? (fun p => decide (p.1 = k')) =
      i.find? (fun p => decide (p.1 = k')) := by
  induction i with
  | nil => rfl
  | cons a i ih =>
    by_cases ha : a.1 = k
    · have : (eraseKey k (a :: i)) = eraseKey k i := by
        simp [eraseKey, List.filter, ha]
      rw [this, ih]
      have : (decide (a.1 = k')) = false := by
        simp only [decide_eq_false_iff_not]
        rw [ha]
        exact fun e => h e.symm
      simp [List.find?, this]
    · have : (eraseKey k (a :: i)) = a :: eraseKey k i := by
        simp [eraseKey, List.filter, ha]
      rw [this]
      by_cases hk' : a.1 = k'
      · simp [List.find?, hk']
      · simp only [List.find?, decide_eq_false hk']
        exact ih

theorem lookup_insert_ne (k k' : String) (v : List Nat) (i : Index)
    (h : ¬k' = k) : lookupKey k' (insertKey k v i) = lookupKey k' i := by
  simp only [lookupKey, insertKey, List.find?, decide_eq_false (fun e : k = k' => h e.symm)]
  rw [find?_erase_ne k k' i h]

theorem lookup_erase_self (k : String) (i : Index) :
    lookupKey k (eraseKey k i) = none := by
  have : (eraseKey k i).find? (fun p => decide (p.1 = k)) = none := by
    rw [List.find?_eq_none]
    intro p hp
    have := List.of_mem_filter hp
    simpa using this
  simp [lookupKey, this]

theorem lookup_erase_ne (k k' : String) (i : Index) (h : ¬k' = k) :
    lookupKey k' (eraseKey k i) = lookupKey k' i := by
  simp only [lookupKey]
  rw [find?_erase_ne k k' i h]

theorem erase_of_lookup_none (k : String) (i : Index)
    (h : lookupKey k i = none) : eraseKey k i = i := by
  have hf : i.find? (fun p => decide (p.1 = k)) = none := by
    cases hfind : i.find? (fun p => decide (p.1 = k)) with
    | none => rfl
    | some p =>
      rw [lookupKey, hfind] at h
      cases h
  rw [List.find?_eq_none] at hf
  simp only [eraseKey]
  rw [List.filter_eq_self]
  intro p hp
  simpa using hf p hp

/-! The Db layer of db.rs. -/

/-- Outcome of one append to the log file: success (all bytes written and
flushed), or an I/O failure after which only the first n bytes of the record
reached the file. -/
inductive WriteOutcome where
  | success
  | fail (written : Nat)

/-- The error type surfaced by a failed append. -/
inductive IoError where
  | ioFailure
deriving DecidableEq

/-- Append the bytes of one record to the log file: on success all bytes are
appended, on failure only the first few of them are. -/
def writeRecord (log bytes : List Nat) : WriteOutcome → Except IoError Unit × List Nat
  | .success => (.ok (), log ++ bytes)
  | .fail n => (.error .ioFailure, log ++ bytes.take n)

/-- Log::put: serialize a Put record and append all its bytes. -/
def Log.put (log key value : List Nat) (o : WriteOutcome) :
    Except IoError Unit × List Nat :=
  writeRecord log (encodeRecord (.Put key value)) o

/-- Log::delete: serialize a Delete record and append all its bytes. -/
def Log.delete (log key : List Nat) (o : WriteOutcome) :
    Except IoError Unit × List Nat :=
  writeRecord log (encodeRecord (.Delete key)) o

/-- The Db struct of db.rs: the log file content and the in-memory index. -/
structure Db where
  log : List Nat
  index : Index

/-- Apply one replayed record to the index as the loop of Db::replay_log
does: decode the key bytes with String::from_utf8; on a valid key insert or
remove, and on invalid UTF-8 skip the record silently. -/
def applyRecord (i : Index) : LogRecord → Index
  | .Put key value =>
    match stringFromUtf8 key with
    | some k => insertKey k value i
    | none => i
  | .Delete key =>
    match stringFromUtf8 key with
    | some k => eraseKey k i
    | none => i

/-- Db::replay_log on an already decoded record list: fold the records in
order into an empty index. -/
def replayRecords (rs : List LogRecord) : Index := rs.foldl applyRecord []

/-- Errors surfaced by Db::open: the propagated structural decode error of
read_all. -/
inductive OpenError where
  | decodeFailed (e : DecodeError)
deriving DecidableEq

/-- Db::open on a directory whose log file holds the given bytes (none when
the file does not exist yet): an absent file yields an empty index, otherwise
read_all decodes the records, any error is propagated, and the index is
rebuilt by replay. -/
def Db.openDb : Option (List Nat) → Except OpenError Db
  | none => .ok { log := [], index := [] }
  | some bytes =>
    match readAll bytes with
    | .error e => .error (.decodeFailed e)
    | .ok rs => .ok { log := bytes, index := replayRecords rs }

/-- Db::put: append a Put record carrying the UTF-8 bytes of the key; on an
I/O error propagate it with the index untouched, and only after a successful
append insert the binding into the index. -/
def Db.put (db : Db) (key : String) (value : List Nat) (o : WriteOutcome) :
    Except IoError Unit × Db :=
  match Log.put db.log (encodeUtf8 key) value o with
  | (.error e, log2) => (.error e, { db with log := log2 })
  | (.ok _, log2) => (.ok (), { log := log2, index := insertKey key value db.index })

/-- Db::get: a pure lookup in the index. -/
def Db.get (db : Db) (key : String) : Option (List Nat) :=
  lookupKey key db.index

/-- Db::delete: append a Delete record carrying the UTF-8 bytes of the key;
on an I/O error propagate it with the index untouched, and only after a
successful append remove the key from the index. -/
def Db.delete (db : Db) (key : String) (o : WriteOutcome) :
    Except IoError Unit × Db :=
  match Log.delete db.log (encodeUtf8 key) o with
  | (.error e, log2) => (.error e, { db with log := log2 })
  | (.ok _, log2) => (.ok (), { log := log2, index := eraseKey key db.index })

/-! Sequences of successful store operations. -/

inductive Op where
  | putOp (key : String) (value : List Nat)
  | delOp (key : String)

/-- The record a store operation appends to the log. -/
def opRecord : Op → LogRecord
  | .putOp k v => .Put (encodeUtf8 k) v
  | .delOp k => .Delete (encodeUtf8 k)

/-- Run one successful store operation. -/
def Db.applyOp (db : Db) : Op → Db
  | .putOp k v => (db.put k v .success).2
  | .delOp k => (db.delete k .success).2

/-- Run a list of successful store operations in order. -/
def Db.runOps (db : Db) : List Op → Db
  | [] => db
  | op :: ops => (db.applyOp op).runOps ops

/-- The length fields of the record an operation writes do not wrap. -/
def opFits : Op → Prop
  | .putOp k v => (encodeUtf8 k).length < 4294967296 ∧ v.length < 4294967296
  | .delOp k => (encodeUtf8 k).length < 4294967296

instance instDecidableOpFits (op : Op) : Decidable (opFits op) :=
  match op with
  | .putOp k v =>
      inferInstanceAs (Decidable ((encodeUtf8 k).length < 4294967296 ∧ v.length < 4294967296))
  | .delOp k =>
      inferInstanceAs (Decidable ((encodeUtf8 k).length < 4294967296))

theorem applyOp_log (db : Db) (op : Op) :
    (db.applyOp op).log = db.log ++ encodeRecord (opRecord op) := by
  cases op <;> rfl

theorem applyRecord_opRecord (i : Index) (op : Op) :
    applyRecord i (opRecord op) = match op with
      | .putOp k v => insertKey k v i
      | .delOp k => eraseKey k i := by
  cases op <;> simp [applyRecord, opRecord, stringFromUtf8_encodeUtf8]

theorem applyOp_index (db : Db) (op : Op) :
    (db.applyOp op).index = applyRecord db.index (opRecord op) := by
  rw [applyRecord_opRecord]
  cases op <;> rfl

theorem runOps_log (db : Db) (ops : List Op) :
    (db.runOps ops).log = db.log ++ encodeRecords (ops.map opRecord) := by
  induction ops generalizing db with
  | nil => simp [Db.runOps, encodeRecords]
  | cons op ops ih =>
    show ((db.applyOp op).runOps ops).log = _
    rw [ih, applyOp_log]
    simp [encodeRecords]

theorem runOps_index (db : Db) (ops : List Op) :
    (db.runOps ops).index = (ops.map opRecord).foldl applyRecord db.index := by
  induction ops generalizing db with
  | nil => rfl
  | cons op ops ih =>
    show ((db.applyOp op).runOps ops).index = _
    rw [ih, applyOp_index]
    rfl

theorem replayRecords_append (rs new : List LogRecord) :
    replayRecords (rs ++ new) = new.foldl applyRecord (replayRecords rs) := by
  simp [replayRecords, List.foldl_append]

/-! Characterization of the replay fold. -/

/-- Modelled from the wording of the spec, for comparison with the replay
fold of the code: the value recorded for one key after applying the sequence
directly in memory with the rule Put overwrites, Delete removes. -/
def specState (rs : List LogRecord) (k : String) : Option (List Nat) :=
  rs.foldl (fun acc r =>
    match r with
    | .Put key v => if stringFromUtf8 key = some k then some v else acc
    | .Delete key => if stringFromUtf8 key = some k then none else acc) none

/-- Whether a record mentions the index key k, i.e. its key bytes decode to
exactly that string. -/
def mentions (k : String) (r : LogRecord) : Bool :=
  decide (stringFromUtf8 r.recordKey = some k)

theorem lookup_applyRecord (i : Index) (r : LogRecord) (k : String) :
    lookupKey k (applyRecord i r) = match r with
      | .Put key v => if stringFromUtf8 key = some k then some v else lookupKey k i
      | .Delete key => if stringFromUtf8 key = some k then none else lookupKey k i := by
  cases r with
  | Put key v =>
    cases h : stringFromUtf8 key with
    | none => simp [applyRecord, h]
    | some k2 =>
      simp only [applyRecord, h]
      by_cases hk : k2 = k
      · subst hk
        simp [lookup_insert_self]
      · rw [lookup_insert_ne k2 k v i (fun e => hk e.symm)]
        simp [hk]
  | Delete key =>
    cases h : stringFromUtf8 key with
    | none => simp [applyRecord, h]
    | some k2 =>
      simp only [applyRecord, h]
      by_cases hk : k2 = k
      · subst hk
        simp [lookup_erase_self]
      · rw [lookup_erase_ne k2 k i (fun e => hk e.symm)]
        simp [hk]

theorem lookup_replay_eq_specState (rs : List LogRecord) (k : String) :
    lookupKey k (replayRecords rs) = specState rs k := by
  induction rs using List.reverseRecOn with
  | nil => rfl
  | append_singleton rs r ih =>
    rw [replayRecords_append]
    show lookupKey k (applyRecord (replayRecords rs) r) = _
    rw [lookup_applyRecord]
    have hs : specState (rs ++ [r]) k = match r with
        | .Put key v => if stringFromUtf8 key = some k then some v else specState rs k
        | .Delete key => if stringFromUtf8 key = some k then none else specState rs k := by
      simp only [specState, List.foldl_append, List.foldl_cons, List.foldl_nil]
    rw [hs]
    cases r <;> rw [ih]

theorem lookup_replay_lastMention (rs : List LogRecord) (k : String) :
    lookupKey k (replayRecords rs) =
      match (rs.filter (mentions k)).getLast? with
      | some (.Put _ v) => some v
      | _ => none := by
  induction rs using List.reverseRecOn with
  | nil => rfl
  | append_singleton rs r ih =>
    rw [replayRecords_append]
    show lookupKey k (applyRecord (replayRecords rs) r) = _
    rw [lookup_applyRecord, List.filter_append]
    cases hm : mentions k r with
    | true =>
      have hfil : List.filter (mentions k) [r] = [r] := by
        simp [List.filter, hm]
      rw [hfil, List.getLast?_concat]
      have hdec : stringFromUtf8 r.recordKey = some k := of_decide_eq_true hm
      cases r with
      | Put key v =>
        simp only [LogRecord.recordKey] at hdec
        simp [hdec]
      | Delete key =>
        simp only [LogRecord.recordKey] at hdec
        simp [hdec]
    | false =>
      have hfil : List.filter (mentions k) [r] = [] := by
        simp [List.filter, hm]
      rw [hfil, List.append_nil]
      have hdec : ¬stringFromUtf8 r.recordKey = some k := of_decide_eq_false hm
      cases r with
      | Put key v =>
        simp only [LogRecord.recordKey] at hdec
        rw [ih]
        simp [hdec]
      | Delete key =>
        simp only [LogRecord.recordKey] at hdec
        rw [ih]
        simp [hdec]

/-- C1: Replay fold correctness.  The index rebuilt by replay agrees with
applying the same record sequence directly in memory under the rule Put
overwrites, Delete removes (here specState, written from the spec wording);
for every key the rebuilt value is the value of the last Put record for that
key unless a later Delete mentions it, i.e. the lookup equals the value of
the last record mentioning the key when that record is a Put, and is absent
when there is no such record or it is a Delete; and Db::open builds exactly
this replayed index from the decoded record list. -/
theorem replay_fold_correct :
    (∀ (rs : List LogRecord) (k : String),
      lookupKey k (replayRecords rs) = specState rs k) ∧
    (∀ (rs : List LogRecord) (k : String),
      lookupKey k (replayRecords rs) =
        match (rs.filter (mentions k)).getLast? with
        | some (.Put _ v) => some v
        | _ => none) ∧
    (∀ (bytes : List Nat) (rs : List LogRecord), readAll bytes = .ok rs →
      Db.openDb (some bytes) = .ok { log := bytes, index := replayRecords rs }) := by
  refine ⟨lookup_replay_eq_specState, lookup_replay_lastMention, ?_⟩
  intro bytes rs h
  simp [Db.openDb, h]

/-- Witness for C1 at a concrete log: a Put of key byte 97 with value byte 7
followed by a Delete of the same key replays to an index where the key is
absent. -/
theorem replay_fold_correct_witness :
    Db.openDb (some [0, 1, 0, 0, 0, 97, 1, 0, 0, 0, 7, 1, 1, 0, 0, 0, 97]) =
      .ok { log := [0, 1, 0, 0, 0, 97, 1, 0, 0, 0, 7, 1, 1, 0, 0, 0, 97],
            index := replayRecords [.Put [97] [7], .Delete [97]] } :=
  replay_fold_correct.2.2 _ [.Put [97] [7], .Delete [97]] rfl

/-- C3: Error atomicity of mutations.  A failed append inside Db::put or
Db::delete propagates the I/O error and leaves the index unchanged; only
after a successful append is the index updated (and the log extended by the
full record). -/
theorem mutation_error_atomicity :
    ∀ (db : Db) (key : String) (value : List Nat) (n : Nat),
      (db.put key value (.fail n)).1 = .error .ioFailure ∧
      ((db.put key value (.fail n)).2).index = db.index ∧
      (db.delete key (.fail n)).1 = .error .ioFailure ∧
      ((db.delete key (.fail n)).2).index = db.index ∧
      (db.put key value .success).1 = .ok () ∧
      ((db.put key value .success).2).index = insertKey key value db.index ∧
      ((db.put key value .success).2).log =
        db.log ++ encodeRecord (.Put (encodeUtf8 key) value) ∧
      (db.delete key .success).1 = .ok () ∧
      ((db.delete key .success).2).index = eraseKey key db.index ∧
      ((db.delete key .success).2).log =
        db.log ++ encodeRecord (.Delete (encodeUtf8 key)) :=
  fun _ _ _ _ => ⟨rfl, rfl, rfl, rfl, rfl, rfl, rfl, rfl, rfl, rfl⟩

/-- C7: Multi-key isolation.  A successful put or delete on one key leaves
the get result of any other key unchanged. -/
theorem multi_key_isolation (db : Db) (k1 k2 : String) (v : List Nat)
    (h : ¬k1 = k2) :
    (db.put k2 v .success).2.get k1 = db.get k1 ∧
    (db.delete k2 .success).2.get k1 = db.get k1 := by
  constructor
  · show lookupKey k1 (insertKey k2 v db.index) = lookupKey k1 db.index
    exact lookup_insert_ne k2 k1 v db.index h
  · show lookupKey k1 (eraseKey k2 db.index) = lookupKey k1 db.index
    exact lookup_erase_ne k2 k1 db.index h

/-- Witness for C7 at concrete distinct keys on an empty store. -/
theorem multi_key_isolation_witness :
    ((Db.mk [] []).put (String.mk ['b']) [7] .success).2.get (String.mk ['a']) =
      (Db.mk [] []).get (String.mk ['a']) ∧
    ((Db.mk [] []).delete (String.mk ['b']) .success).2.get (String.mk ['a']) =
      (Db.mk [] []).get (String.mk ['a']) :=
  multi_key_isolation (Db.mk [] []) (String.mk ['a']) (String.mk ['b']) [7] (by decide)

/-- C8: Delete of an absent key is not an error.  When the key is absent,
Db::delete still appends a Delete record, returns success, and the index is
unchanged. -/
theorem delete_absent_key (db : Db) (key : String) (h : db.get key = none) :
    (db.delete key .success).1 = .ok () ∧
    (db.delete key .success).2.log = db.log ++ encodeRecord (.Delete (encodeUtf8 key)) ∧
    (db.delete key .success).2.index = db.index := by
  refine ⟨rfl, rfl, ?_⟩
  show eraseKey key db.index = db.index
  exact erase_of_lookup_none key db.index h

/-- Witness for C8 on an empty store with a concrete key. -/
theorem delete_absent_key_witness :
    ((Db.mk [] []).delete (String.mk ['a']) .success).1 = .ok () ∧
    ((Db.mk [] []).delete (String.mk ['a']) .success).2.log =
      [] ++ encodeRecord (.Delete (encodeUtf8 (String.mk ['a']))) ∧
    ((Db.mk [] []).delete (String.mk ['a']) .success).2.index = ([] : Index) :=
  delete_absent_key (Db.mk [] []) (String.mk ['a']) rfl

/-! Parsing a stream that begins with an already parseable segment. -/

theorem takeExact_extend {n : Nat} {s a b : List Nat} (t : List Nat)
    (h : takeExact n s = some (a, b)) : takeExact n (s ++ t) = some (a, b ++ t) := by
  obtain ⟨hs, hl⟩ := takeExact_eq_some h
  subst hs
  rw [List.append_assoc, ← hl]
  exact takeExact_append a (b ++ t)

theorem readOne_append {s : List Nat} {r : LogRecord} {rest : List Nat} (t : List Nat)
    (h : readOne s = .ok (some (r, rest))) :
    readOne (s ++ t) = .ok (some (r, rest ++ t)) := by
  cases s with
  | nil => cases h
  | cons b tl =>
    rw [List.cons_append]
    simp only [readOne] at h ⊢
    cases h4 : takeExact 4 tl with
    | none => rw [h4] at h; cases h
    | some p =>
      obtain ⟨lenB, rest2⟩ := p
      rw [h4] at h
      rw [takeExact_extend t h4]
      dsimp only at h ⊢
      cases h5 : takeExact (le32 lenB) rest2 with
      | none => rw [h5] at h; cases h
      | some q =>
        obtain ⟨key, rest3⟩ := q
        rw [h5] at h
        rw [takeExact_extend t h5]
        dsimp only at h ⊢
        by_cases hb0 : b = 0
        · subst hb0
          rw [if_pos rfl] at h ⊢
          cases h6 : takeExact 4 rest3 with
          | none => rw [h6] at h; cases h
          | some u =>
            obtain ⟨vlenB, rest4⟩ := u
            rw [h6] at h
            rw [takeExact_extend t h6]
            dsimp only at h ⊢
            cases h7 : takeExact (le32 vlenB) rest4 with
            | none => rw [h7] at h; cases h
            | some w =>
              obtain ⟨value, rest5⟩ := w
              rw [h7] at h
              rw [takeExact_extend t h7]
              dsimp only at h ⊢
              injection h with h
              injection h with h
              injection h with h1 h2
              subst h1
              subst h2
              rfl
        · rw [if_neg hb0] at h ⊢
          by_cases hb1 : b = 1
          · subst hb1
            rw [if_pos rfl] at h ⊢
            injection h with h
            injection h with h
            injection h with h1 h2
            subst h1
            subst h2
            rfl
          · rw [if_neg hb1] at h
            cases h

theorem readAll_append_of_ok : ∀ n : Nat, ∀ s : List Nat, s.length ≤ n →
    ∀ rs : List LogRecord, readAll s = .ok rs → ∀ t : List Nat,
    readAll (s ++ t) = match readAll t with
      | .ok more => .ok (rs ++ more)
      | .error e => .error e := by
  intro n
  induction n with
  | zero =>
    intro s hs rs h t
    have hnil : s = [] := List.eq_nil_of_length_eq_zero (by omega)
    subst hnil
    rw [readAll_nil] at h
    injection h with h
    subst h
    rw [List.nil_append]
    cases readAll t <;> rfl
  | succ n ih =>
    intro s hs rs h t
    cases hro : readOne s with
    | error e => rw [readAll_step_error hro] at h; cases h
    | ok v =>
      cases v with
      | none =>
        have hnil := readOne_eq_none hro
        subst hnil
        rw [readAll_nil] at h
        injection h with h
        subst h
        rw [List.nil_append]
        cases readAll t <;> rfl
      | some p =>
        obtain ⟨r, rest⟩ := p
        have hlt := readOne_length_lt hro
        rw [readAll_step hro] at h
        cases hrest : readAll rest with
        | error e => rw [hrest] at h; cases h
        | ok rs2 =>
          rw [hrest] at h
          injection h with h
          subst h
          rw [readAll_step (readOne_append t hro)]
          rw [ih rest (by omega) rs2 hrest t]
          cases readAll t <;> rfl

/-! The append-only writer of log.rs, applied to a whole call sequence. -/

/-- Run a sequence of successful append calls (Log::put and Log::delete)
against a log file with the given initial content. -/
def Log.runCalls (log : List Nat) : List LogRecord → List Nat
  | [] => log
  | .Put k v :: rest => Log.runCalls (Log.put log k v .success).2 rest
  | .Delete k :: rest => Log.runCalls (Log.delete log k .success).2 rest

theorem runCalls_encode (log : List Nat) (calls : List LogRecord) :
    Log.runCalls log calls = log ++ encodeRecords calls := by
  induction calls generalizing log with
  | nil => simp [Log.runCalls, encodeRecords]
  | cons r rest ih =>
    cases r with
    | Put k v =>
      show Log.runCalls (log ++ encodeRecord (.Put k v)) rest = _
      rw [ih]
      simp [encodeRecords]
    | Delete k =>
      show Log.runCalls (log ++ encodeRecord (.Delete k)) rest = _
      rw [ih]
      simp [encodeRecords]

/-- C2 (amended): Log round-trip and ordering, for keys and values shorter
than 2^32 bytes.  For every sequence of append_put and append_delete calls
on a fresh file whose keys and values all fit the 32-bit length fields,
read_all returns exactly the same records, in call order, unchanged. -/
theorem log_round_trip (calls : List LogRecord) (hfit : recordsFit calls) :
    readAll (Log.runCalls [] calls) = .ok calls := by
  rw [runCalls_encode, List.nil_append]
  exact readAll_encode calls hfit

/-- Witness for C2 at a concrete call sequence with empty and nonempty keys
and values. -/
theorem log_round_trip_witness :
    readAll (Log.runCalls [] [.Put [97] [7], .Put [] [], .Delete []]) =
      .ok [.Put [97] [7], .Put [] [], .Delete []] :=
  log_round_trip [.Put [97] [7], .Put [] [], .Delete []] (by decide)

/-! A key of exactly 2^32 bytes wraps its length field to 0, which breaks
the round trip: the encoded stream of a single huge Put parses as a run of
empty records followed by a truncated tail. -/

theorem readAll_replicate_zero : ∀ k : Nat,
    readAll (List.replicate (9 * k + 4) 0) = .error .eof := by
  intro k
  induction k with
  | zero => rfl
  | succ k ih =>
    have he : 9 * (k + 1) + 4 = 9 + (9 * k + 4) := by ring
    rw [he, List.replicate_add]
    have he2 : List.replicate 9 (0 : Nat) = encodeRecord (.Put [] []) := rfl
    rw [he2, readAll_step (readOne_encode _ _ (by exact ⟨by norm_num, by norm_num⟩))]
    rw [ih]

theorem encode_big_put :
    encodeRecord (.Put (List.replicate 4294967296 0) []) =
      List.replicate 4294967305 0 := by
  have hlen : (List.replicate 4294967296 (0 : Nat)).length = 4294967296 :=
    List.length_replicate _ _
  have hmod : (4294967296 : Nat) % 4294967296 = 0 := by norm_num
  have hsplit : List.replicate 4294967305 (0 : Nat) =
      List.replicate 5 0 ++ (List.replicate 4294967296 0 ++ List.replicate 4 0) := by
    rw [← List.replicate_add, ← List.replicate_add]
  rw [hsplit]
  simp only [encodeRecord, hlen, hmod, List.length_nil, Nat.zero_mod]
  have hu : u32le 0 = [0, 0, 0, 0] := rfl
  rw [hu]
  have h5 : List.replicate 5 (0 : Nat) = [0, 0, 0, 0, 0] := rfl
  have h4 : List.replicate 4 (0 : Nat) = [0, 0, 0, 0] := rfl
  rw [h5, h4]
  simp only [List.append_nil, List.cons_append, List.nil_append]

/-- Counterexample to C2 as stated: a single append_put call whose key is
exactly 2^32 zero bytes produces a file on which read_all fails with an
unexpected end of file instead of returning the written record. -/
theorem log_round_trip_counterexample :
    readAll (Log.runCalls [] [.Put (List.replicate 4294967296 0) []]) = .error .eof ∧
    ¬readAll (Log.runCalls [] [.Put (List.replicate 4294967296 0) []]) =
      .ok [.Put (List.replicate 4294967296 0) []] := by
  have h1 : Log.runCalls [] [.Put (List.replicate 4294967296 0) []] =
      List.replicate 4294967305 0 := by
    rw [runCalls_encode]
    simp only [encodeRecords, List.map_cons, List.map_nil, List.flatten_cons,
      List.flatten_nil, List.nil_append, List.append_nil]
    exact encode_big_put
  have h2 := readAll_replicate_zero 477218589
  have h3 : 9 * 477218589 + 4 = 4294967305 := by norm_num
  rw [h3] at h2
  rw [h1]
  refine ⟨h2, ?_⟩
  rw [h2]
  intro hcontra
  cases hcontra

/-! Idempotent recovery. -/

theorem openDb_inv {file : Option (List Nat)} {db0 : Db}
    (h : Db.openDb file = .ok db0) :
    ∃ rs, readAll db0.log = .ok rs ∧ db0.index = replayRecords rs := by
  cases file with
  | none =>
    injection h with h
    subst h
    exact ⟨[], rfl, rfl⟩
  | some bytes =>
    simp only [Db.openDb] at h
    cases hra : readAll bytes with
    | error e => rw [hra] at h; cases h
    | ok rs =>
      rw [hra] at h
      injection h with h
      subst h
      exact ⟨rs, hra, rfl⟩

/-- C4 (amended): Idempotent recovery for operations whose keys and values
fit the 32-bit length fields.  Starting from any successfully opened store,
after a sequence of successful put and delete operations whose key bytes and
values are shorter than 2^32 bytes, reopening the directory succeeds and
yields a store with the same log and index, so its get result on every key
equals the get result before reopening. -/
theorem idempotent_recovery (file : Option (List Nat)) (db0 : Db) (ops : List Op)
    (hopen : Db.openDb file = .ok db0) (hfit : ∀ op ∈ ops, opFits op) :
    Db.openDb (some (db0.runOps ops).log) = .ok (db0.runOps ops) ∧
    ∀ db2 : Db, Db.openDb (some (db0.runOps ops).log) = .ok db2 →
      ∀ k : String, db2.get k = (db0.runOps ops).get k := by
  obtain ⟨rs, hra, hidx⟩ := openDb_inv hopen
  have hfit2 : recordsFit (ops.map opRecord) := by
    intro r hr
    obtain ⟨op, hop, rfl⟩ := List.mem_map.mp hr
    have := hfit op hop
    cases op with
    | putOp k v => exact this
    | delOp k => exact this
  have hparse : readAll (db0.runOps ops).log = .ok (rs ++ ops.map opRecord) := by
    rw [runOps_log]
    rw [readAll_append_of_ok db0.log.length db0.log le_rfl rs hra
      (encodeRecords (ops.map opRecord))]
    rw [readAll_encode _ hfit2]
  have hreplay : replayRecords (rs ++ ops.map opRecord) = (db0.runOps ops).index := by
    rw [replayRecords_append, ← hidx, runOps_index]
  have hmain : Db.openDb (some (db0.runOps ops).log) = .ok (db0.runOps ops) := by
    simp only [Db.openDb, hparse, hreplay]
  refine ⟨hmain, ?_⟩
  intro db2 h2 k
  rw [hmain] at h2
  injection h2 with h2
  rw [h2]

/-- Witness for C4: a single put on a fresh store, then reopen. -/
theorem idempotent_recovery_witness :
    Db.openDb (some ((Db.mk [] []).runOps [.putOp (String.mk ['a']) [7]]).log) =
      .ok ((Db.mk [] []).runOps [.putOp (String.mk ['a']) [7]]) :=
  (idempotent_recovery none (Db.mk [] []) [.putOp (String.mk ['a']) [7]] rfl
    (by decide)).1

/-- A string key of exactly 2^32 NUL characters; its UTF-8 encoding is 2^32
zero bytes, so its length field wraps to 0. -/
def bigKey : String := String.mk (List.replicate 4294967296 (Char.ofNat 0))

theorem flatMap_encodeChar_nul : ∀ n : Nat,
    (List.replicate n (Char.ofNat 0)).flatMap encodeChar = List.replicate n 0 := by
  intro n
  induction n with
  | zero => rfl
  | succ n ih =>
    rw [List.replicate_succ, List.flatMap_cons, ih]
    have h : encodeChar (Char.ofNat 0) = [0] := rfl
    rw [h]
    rfl

theorem openDb_readAll_error {bytes : List Nat} {e : DecodeError}
    (h : readAll bytes = .error e) :
    Db.openDb (some bytes) = .error (.decodeFailed e) := by
  simp only [Db.openDb, h]

/-- Counterexample to C4 as stated: a successful put of a key of 2^32 NUL
characters produces a log on which reopening fails with a structural error,
so reopening does not yield a store with the same get results. -/
theorem recovery_counterexample :
    Db.openDb (some ((Db.mk [] []).runOps [.putOp bigKey []]).log) =
      .error (.decodeFailed .eof) := by
  have hk : encodeUtf8 bigKey = List.replicate 4294967296 0 := by
    show (List.replicate 4294967296 (Char.ofNat 0)).flatMap encodeChar = _
    exact flatMap_encodeChar_nul _
  have hlog : ((Db.mk [] []).runOps [.putOp bigKey []]).log =
      List.replicate 4294967305 0 := by
    rw [runOps_log]
    simp only [List.map_cons, List.map_nil, opRecord, encodeRecords,
      List.flatten_cons, List.flatten_nil, List.nil_append, List.append_nil]
    rw [hk]
    exact encode_big_put
  rw [hlog]
  have h2 := readAll_replicate_zero 477218589
  have h3 : 9 * 477218589 + 4 = 4294967305 := by norm_num
  rw [h3] at h2
  exact openDb_readAll_error h2

/-! The error contract of read_all. -/

theorem readOne_short_len {t : Nat} {extra : List Nat} (h : extra.length < 4) :
    readOne (t :: extra) = .error .eof := by
  simp only [readOne]
  have he : takeExact 4 extra = none := by
    unfold takeExact
    rw [if_neg (by omega)]
  rw [he]

theorem readOne_short_key {t : Nat} {lenB extra : List Nat} (h4 : lenB.length = 4)
    (h : extra.length < le32 lenB) : readOne (t :: (lenB ++ extra)) = .error .eof := by
  simp only [readOne]
  have he : takeExact 4 (lenB ++ extra) = some (lenB, extra) := by
    rw [← h4]
    exact takeExact_append lenB extra
  rw [he]
  dsimp only
  have he2 : takeExact (le32 lenB) extra = none := by
    unfold takeExact
    rw [if_neg (by omega)]
  rw [he2]

theorem readOne_bad_tag {t : Nat} {key extra : List Nat} (ht0 : ¬t = 0) (ht1 : ¬t = 1)
    (hfit : key.length < 4294967296) :
    readOne (t :: (u32le key.length ++ (key ++ extra))) = .error (.unknownTag t) := by
  simp only [readOne, takeExact_four_u32le, le32_u32le _ hfit, takeExact_append]
  rw [if_neg ht0, if_neg ht1]

/-- C5: read_all error contract.  Reading a byte stream succeeds exactly when
the stream is a concatenation of well-formed records, so end of file falls on
a record boundary; every failure is either an unexpected-end-of-file error or
an unknown-record-type error for a tag that is neither 0 nor 1; end of file
inside the length field or inside the declared key produces the end-of-file
error; and a tag byte that is neither 0 nor 1, reached with its key material
present, produces the unknown-record-type error for that tag. -/
theorem read_all_error_contract :
    (∀ s : List Nat, (∀ b ∈ s, b < 256) →
      ((∃ rs, readAll s = .ok rs) ↔ ∃ rs, recordsFit rs ∧ s = encodeRecords rs)) ∧
    (∀ (s : List Nat) (e : DecodeError), readAll s = .error e →
      e = .eof ∨ ∃ t, ¬t = 0 ∧ ¬t = 1 ∧ e = .unknownTag t) ∧
    (∀ (rs : List LogRecord) (t : Nat) (extra : List Nat), recordsFit rs →
      extra.length < 4 → readAll (encodeRecords rs ++ t :: extra) = .error .eof) ∧
    (∀ (rs : List LogRecord) (t : Nat) (lenB extra : List Nat), recordsFit rs →
      lenB.length = 4 → extra.length < le32 lenB →
      readAll (encodeRecords rs ++ t :: (lenB ++ extra)) = .error .eof) ∧
    (∀ (rs : List LogRecord) (t : Nat) (key extra : List Nat), recordsFit rs →
      ¬t = 0 → ¬t = 1 → key.length < 4294967296 →
      readAll (encodeRecords rs ++ t :: (u32le key.length ++ (key ++ extra))) =
        .error (.unknownTag t)) := by
  refine ⟨?_, ?_, ?_, ?_, ?_⟩
  · intro s hb
    constructor
    · rintro ⟨rs, hok⟩
      obtain ⟨henc, hfit⟩ := readAll_sound s.length s le_rfl hb rs hok
      exact ⟨rs, hfit, henc⟩
    · rintro ⟨rs, hfit, rfl⟩
      exact ⟨rs, readAll_encode rs hfit⟩
  · intro s e h
    exact readAll_error_shape (s.length + 1) s e h
  · intro rs t extra hfit hlen
    rw [readAll_append_encode rs _ hfit,
      readAll_step_error (readOne_short_len hlen)]
  · intro rs t lenB extra hfit h4 hlen
    rw [readAll_append_encode rs _ hfit,
      readAll_step_error (readOne_short_key h4 hlen)]
  · intro rs t key extra hfit ht0 ht1 hkey
    rw [readAll_append_encode rs _ hfit,
      readAll_step_error (readOne_bad_tag ht0 ht1 hkey)]

/-- Witness for C5 at concrete streams: a well-formed one-record stream
parses, a lone tag byte fails with end of file, and a stream carrying the
unknown tag 2 with an empty key fails with the unknown-record-type error. -/
theorem read_all_error_contract_witness :
    (∃ rs, readAll [1, 0, 0, 0, 0] = .ok rs) ∧
    readAll [0] = .error .eof ∧
    readAll [2, 0, 0, 0, 0] = .error (.unknownTag 2) := by
  refine ⟨?_, ?_, ?_⟩
  · exact (read_all_error_contract.1 [1, 0, 0, 0, 0] (by decide)).mpr
      ⟨[.Delete []], by decide, rfl⟩
  · exact read_all_error_contract.2.2.1 [] 0 [] (fun r hr => by cases hr) (by decide)
  · exact read_all_error_contract.2.2.2.2 [] 2 [] [] (fun r hr => by cases hr)
      (by decide) (by decide) (by decide)

/-! Replay silently skips records whose key bytes are not valid UTF-8. -/

theorem applyRecord_invalid {r : LogRecord} (i : Index)
    (h : stringFromUtf8 r.recordKey = none) : applyRecord i r = i := by
  cases r with
  | Put key value => simp only [LogRecord.recordKey] at h; simp [applyRecord, h]
  | Delete key => simp only [LogRecord.recordKey] at h; simp [applyRecord, h]

theorem foldl_applyRecord_filter (rs : List LogRecord) : ∀ i : Index,
    rs.foldl applyRecord i =
      (rs.filter (fun r => (stringFromUtf8 r.recordKey).isSome)).foldl applyRecord i := by
  induction rs with
  | nil => intro i; rfl
  | cons r rs ih =>
    intro i
    cases h : stringFromUtf8 r.recordKey with
    | none =>
      have hf : (fun r => (stringFromUtf8 r.recordKey).isSome) r = false := by
        simp [h]
      rw [List.filter_cons_of_neg (by simp [hf]), List.foldl_cons,
        applyRecord_invalid i h, ih]
    | some k =>
      have hf : (fun r => (stringFromUtf8 r.recordKey).isSome) r = true := by
        simp [h]
      rw [List.filter_cons_of_pos (by simp [hf]), List.foldl_cons, List.foldl_cons, ih]

/-- C6: Silent drop of non-UTF-8 keys on replay.  A record whose key bytes
are not valid UTF-8 leaves the index unchanged when replayed, the whole
replay equals the replay of only the valid-key records, and a log containing
such records still opens successfully. -/
theorem invalid_key_skipped :
    (∀ (i : Index) (key value : List Nat), stringFromUtf8 key = none →
      applyRecord i (.Put key value) = i ∧ applyRecord i (.Delete key) = i) ∧
    (∀ rs : List LogRecord,
      replayRecords rs =
        replayRecords (rs.filter (fun r => (stringFromUtf8 r.recordKey).isSome))) ∧
    (∀ rs : List LogRecord, recordsFit rs →
      Db.openDb (some (encodeRecords rs)) =
        .ok { log := encodeRecords rs, index := replayRecords rs }) := by
  refine ⟨?_, ?_, ?_⟩
  · intro i key value h
    exact ⟨applyRecord_invalid (r := .Put key value) i h,
      applyRecord_invalid (r := .Delete key) i h⟩
  · intro rs
    exact foldl_applyRecord_filter rs []
  · intro rs hfit
    simp [Db.openDb, readAll_encode rs hfit]

/-- Witness for C6 with the invalid key byte 255: the record is skipped and
the log still opens. -/
theorem invalid_key_skipped_witness :
    applyRecord [] (.Put [255] [7]) = [] ∧
    applyRecord [] (.Delete [255]) = [] ∧
    Db.openDb (some (encodeRecords [.Put [255] [7]])) =
      .ok { log := encodeRecords [.Put [255] [7]],
            index := replayRecords [.Put [255] [7]] } := by
  refine ⟨?_, ?_, ?_⟩
  · exact (invalid_key_skipped.1 [] [255] [7] (by decide)).1
  · exact (invalid_key_skipped.1 [] [255] [7] (by decide)).2
  · exact invalid_key_skipped.2.2 [.Put [255] [7]] (by decide)

/-- C9: Keys reaching the log through the store are UTF-8 encodings of
strings, so replay the silent-skip branch never fires for them: the bytes
Db::put and Db::delete log for a key always decode back to that key, every
record a store operation writes has a decodable key, filtering the skipped
records away removes nothing, and the log bytes a put appends carry exactly
the UTF-8 encoding of the key. -/
theorem store_keys_always_valid :
    (∀ s : String, stringFromUtf8 (encodeUtf8 s) = some s) ∧
    (∀ ops : List Op,
      ((ops.map opRecord).all fun r => (stringFromUtf8 r.recordKey).isSome) = true) ∧
    (∀ ops : List Op,
      ((ops.map opRecord).filter fun r => (stringFromUtf8 r.recordKey).isSome) =
        ops.map opRecord) ∧
    (∀ (db : Db) (k : String) (v : List Nat),
      ((db.put k v .success).2).log = db.log ++ encodeRecord (.Put (encodeUtf8 k) v) ∧
      ((db.delete k .success).2).log = db.log ++ encodeRecord (.Delete (encodeUtf8 k))) := by
  have hall : ∀ ops : List Op, ∀ r ∈ ops.map opRecord,
      (stringFromUtf8 r.recordKey).isSome = true := by
    intro ops r hr
    obtain ⟨op, hop, rfl⟩ := List.mem_map.mp hr
    cases op with
    | putOp k v =>
      show (stringFromUtf8 (encodeUtf8 k)).isSome = true
      rw [stringFromUtf8_encodeUtf8]
      rfl
    | delOp k =>
      show (stringFromUtf8 (encodeUtf8 k)).isSome = true
      rw [stringFromUtf8_encodeUtf8]
      rfl
  refine ⟨stringFromUtf8_encodeUtf8, ?_, ?_, ?_⟩
  · intro ops
    rw [List.all_eq_true]
    exact fun r hr => hall ops r hr
  · intro ops
    rw [List.filter_eq_self]
    exact fun r hr => hall ops r hr
  · intro db k v
    exact ⟨rfl, rfl⟩

theorem take_four_u32le (n : Nat) (b : List Nat) : (u32le n ++ b).take 4 = u32le n := rfl

theorem drop_value_field (key value : List Nat) :
    (encodeRecord (.Put key value)).drop (5 + key.length) =
      u32le (value.length % 4294967296) ++ value := by
  have he : encodeRecord (.Put key value) =
      (0 :: (u32le (key.length % 4294967296) ++ key)) ++
        (u32le (value.length % 4294967296) ++ value) := by
    simp [encodeRecord, List.cons_append, List.append_assoc]
  rw [he]
  refine List.drop_left' ?_
  simp only [List.length_cons, List.length_append, length_u32le]
  omega

/-- C10: The length fields written by Log::put and Log::delete hold the byte
length cast to u32, i.e. reduced modulo 2^32, with no range check and no
error: the 4-byte key-length field after the tag decodes to the key length
modulo 2^32 for both record kinds, the 4-byte value-length field of a Put
record (located after the tag, the key-length field and the key) decodes to
the value length modulo 2^32, each field equals the exact length whenever the
key or value is shorter than 2^32 bytes, and the append reports success
regardless of the input sizes. -/
theorem length_field_wraps :
    (∀ key value : List Nat,
      le32 (((encodeRecord (.Put key value)).drop 1).take 4) =
        key.length % 4294967296 ∧
      le32 (((encodeRecord (.Delete key)).drop 1).take 4) =
        key.length % 4294967296 ∧
      le32 (((encodeRecord (.Put key value)).drop (5 + key.length)).take 4) =
        value.length % 4294967296) ∧
    (∀ key value : List Nat, key.length < 4294967296 →
      le32 (((encodeRecord (.Put key value)).drop 1).take 4) = key.length) ∧
    (∀ key value : List Nat, value.length < 4294967296 →
      le32 (((encodeRecord (.Put key value)).drop (5 + key.length)).take 4) =
        value.length) ∧
    (∀ log key value : List Nat,
      (Log.put log key value .success).1 = .ok () ∧
      (Log.delete log key .success).1 = .ok ()) := by
  have hfield : ∀ key value : List Nat,
      le32 (((encodeRecord (.Put key value)).drop 1).take 4) =
        key.length % 4294967296 := by
    intro key value
    show le32 ((u32le (key.length % 4294967296) ++
      (key ++ (u32le (value.length % 4294967296) ++ value))).take 4) = _
    rw [take_four_u32le]
    exact le32_u32le _ (Nat.mod_lt _ (by norm_num))
  have hvfield : ∀ key value : List Nat,
      le32 (((encodeRecord (.Put key value)).drop (5 + key.length)).take 4) =
        value.length % 4294967296 := by
    intro key value
    rw [drop_value_field, take_four_u32le]
    exact le32_u32le _ (Nat.mod_lt _ (by norm_num))
  refine ⟨?_, ?_, ?_, ?_⟩
  · intro key value
    refine ⟨hfield key value, ?_, hvfield key value⟩
    show le32 ((u32le (key.length % 4294967296) ++ key).take 4) = _
    rw [take_four_u32le]
    exact le32_u32le _ (Nat.mod_lt _ (by norm_num))
  · intro key value h
    rw [hfield key value]
    exact Nat.mod_eq_of_lt h
  · intro key value h
    rw [hvfield key value]
    exact Nat.mod_eq_of_lt h
  · intro log key value
    exact ⟨rfl, rfl⟩

/-- Witness for C10 at a one-byte key and a two-byte value: the key-length
field decodes to 1 and the value-length field to 2. -/
theorem length_field_wraps_witness :
    le32 (((encodeRecord (.Put [97] [7, 8])).drop 1).take 4) = 1 ∧
    le32 (((encodeRecord (.Put [97] [7, 8])).drop (5 + 1)).take 4) = 2 :=
  ⟨length_field_wraps.2.1 [97] [7, 8] (by norm_num),
   length_field_wraps.2.2.1 [97] [7, 8] (by norm_num)⟩

end DocDb
